import Mathlib

/-!
Verification of the streaming chat session engine of the Nyl-core
frontend (`apps/nyl-frontend/src/hooks/useChat.js` and the session
handling in the landing page component).

Strings from the JavaScript source are modelled as `List Char`; the
numeric timestamps produced by `new Date()` are modelled as opaque `Nat`
values supplied as parameters.  `JSON.parse` is a platform builtin, so
the decode loop is parameterized by an arbitrary parse function
returning the projection of the parsed value onto the fields the code
reads (`choices[0].delta.content`).
-/

namespace Nyl

abbrev Str := List Char

/-- The JavaScript whitespace class (`\s`, and the set used by
`String.prototype.trim`): tab, line feed, vertical tab, form feed,
carriage return, space, and the Unicode space separators. -/
def isJsWS (c : Char) : Bool :=
  c = ' ' || c = '\t' || c = '\n' || c = '\u000B' || c = '\u000C' || c = '\r' ||
  c = ' ' || c = ' ' || (' ' ≤ c && c ≤ ' ') ||
  c = ' ' || c = ' ' || c = ' ' || c = ' ' ||
  c = '　' || c = '﻿'

/-- JavaScript `String.prototype.trim`: drop whitespace from both ends. -/
def jsTrim (s : Str) : Str :=
  ((s.dropWhile isJsWS).reverse.dropWhile isJsWS).reverse

/-- `buffer.replace(/\r/g, "")`. -/
def stripCR (s : Str) : Str := s.filter (fun c => c != '\r')

/-- Prepend a character to the first piece of a split result
(the way a non-separator character extends the current chunk). -/
def consHead (c : Char) : List Str → List Str
  | [] => [[c]]
  | h :: t => (c :: h) :: t

/-- JavaScript `buffer.split("\n\n")`: leftmost, non-overlapping split on
a blank line.  The result is always non-empty; the last piece is the
part after the final separator (possibly empty). -/
def splitOnNN : Str → List Str
  | [] => [[]]
  | [c] => [[c]]
  | a :: b :: rest =>
    if a = '\n' ∧ b = '\n' then [] :: splitOnNN rest
    else consHead a (splitOnNN (b :: rest))

/-- Join the pieces back with a blank line: the inverse of `splitOnNN`. -/
def joinNN : List Str → Str
  | [] => []
  | [x] => x
  | x :: y :: rest => x ++ '\n' :: '\n' :: joinNN (y :: rest)

/-- `true` iff the string contains no blank-line separator `"\n\n"`. -/
def noNN : Str → Bool
  | [] => true
  | [_] => true
  | a :: b :: rest => !(a = '\n' && b = '\n') && noNN (b :: rest)

/-- JavaScript `chunks.pop() || ""` (the last piece of a non-empty split,
and `""` on an empty list). -/
def lastRem : List Str → Str
  | [] => []
  | [x] => x
  | _ :: x :: xs => lastRem (x :: xs)

/-- JavaScript `chunk.split("\n")`. -/
def splitOnNL : Str → List Str
  | [] => [[]]
  | c :: rest => if c = '\n' then [] :: splitOnNL rest else consHead c (splitOnNL rest)

/-- JavaScript `dataLines.join("\n")`. -/
def joinNL : List Str → Str
  | [] => []
  | [x] => x
  | x :: y :: rest => x ++ '\n' :: joinNL (y :: rest)

/-- JavaScript `line.startsWith("data:")`. -/
def startsWithData (l : Str) : Bool :=
  decide (l.take 5 = ('d' :: 'a' :: 't' :: 'a' :: ':' :: []))

/-- JavaScript `line.replace(/^data:\s?/, "")` on a line already known to
start with `data:`: remove the tag and at most one whitespace character. -/
def stripDataTag (line : Str) : Str :=
  match line.drop 5 with
  | [] => []
  | c :: rest => if isJsWS c then rest else c :: rest

/-- One complete chunk of the split buffer, turned into an event payload:
whitespace-only chunks are dropped (`if (!chunk.trim()) continue`),
otherwise the `data:`-lines are collected, stripped and joined; a chunk
with no data lines produces no event. -/
def processChunk (chunk : Str) : Option Str :=
  if chunk.all isJsWS then none
  else
    let dataLines := ((splitOnNL chunk).filter startsWithData).map stripDataTag
    if dataLines = [] then none
    else some (joinNL dataLines)

/-- The Frame Parser `parseSseEvents` of `useChat.js`: normalize carriage
returns away, split the buffer on blank lines, keep the (possibly
incomplete) last piece as the remainder, and turn every complete chunk
into at most one event payload. -/
def parseSseEvents (buffer : Str) : List Str × Str :=
  let chunks := splitOnNN (stripCR buffer)
  let remaining := lastRem chunks
  (chunks.dropLast.filterMap processChunk, remaining)

/-- Feed a list of chunks to the Frame Parser sequentially, prefixing
each call's input with the previous call's remainder, collecting all
events in order. -/
def feedChunks : Str → List Str → List Str × Str
  | rem, [] => ([], rem)
  | rem, c :: cs =>
    let p := parseSseEvents (rem ++ c)
    let r := feedChunks p.2 cs
    (p.1 ++ r.1, r.2)

/-- A role/content pair: the shape of the messages sent to the
completion endpoint and appended to a session's persisted log. -/
structure ChatMessage where
  role : Str
  content : Str
deriving DecidableEq

/-- The client-side Turn: one exchange as rendered by the UI
(`{id, user, assistant, createdAt, assistantAt}`). -/
structure Turn where
  id : Str
  user : Str
  assistant : Str
  createdAt : Nat
  assistantAt : Option Nat
deriving DecidableEq

def MAX_HISTORY_TURNS : Nat := 12

/-- `buildMessages` of `useChat.js`: the trimmed system prompt (when
non-empty), then `history.slice(-MAX_HISTORY_TURNS)` with each entry
expanded to a user line and (when the assistant text is truthy) an
assistant line, then the new user message. -/
def buildMessages (systemPrompt : Str) (history : List Turn) (userMessage : Str) :
    List ChatMessage :=
  let recentHistory := history.drop (history.length - MAX_HISTORY_TURNS)
  let messages : List ChatMessage := []
  let messages := if jsTrim systemPrompt ≠ [] then
    messages ++ [⟨"system".toList, jsTrim systemPrompt⟩] else messages
  let messages := recentHistory.foldl
    (fun ms entry =>
      let ms := ms ++ [⟨"user".toList, entry.user⟩]
      if entry.assistant ≠ [] then ms ++ [⟨"assistant".toList, entry.assistant⟩] else ms)
    messages
  messages ++ [⟨"user".toList, userMessage⟩]

/-- Expansion of one prior turn into outbound messages, as the spec
describes it: a user message and, when the turn has assistant text, an
assistant message. -/
def expandTurn (t : Turn) : List ChatMessage :=
  ⟨"user".toList, t.user⟩ ::
    (if t.assistant = [] then [] else [⟨"assistant".toList, t.assistant⟩])

/-- The projection of a parsed stream payload onto the fields the decode
loop reads: `delta.content`, each link optional. -/
structure DeltaObj where
  content : Option Str
deriving DecidableEq

structure ChoiceObj where
  delta : Option DeltaObj
deriving DecidableEq

structure ChatChunk where
  choices : Option (List ChoiceObj)
deriving DecidableEq

/-- `data?.choices?.[0]?.delta` followed by the `!delta?.content` guard:
the content delta of a parsed payload, `none` when any link of the
optional chain is missing or the content is empty (falsy). -/
def extractDelta (d : ChatChunk) : Option Str :=
  match d.choices with
  | some (c :: _) =>
    match c.delta with
    | some dl =>
      match dl.content with
      | some s => if s = [] then none else some s
      | none => none
    | none => none
  | _ => none

def doneLit : Str := "[DONE]".toList

/-- One iteration of the decode loop of `handleSubmit`: the `[DONE]`
sentinel yields no delta; a payload on which `JSON.parse` throws
(modelled by the `parse` parameter returning `none`) is skipped with
`continue`; otherwise the content delta, if any, is extracted. -/
def decodeEvent (parse : Str → Option ChatChunk) (ev : Str) : Option Str :=
  if ev = doneLit then none
  else
    match parse ev with
    | none => none
    | some data => extractDelta data

/-- The deltas produced, in order, by running the decode loop over a
list of frame payloads. -/
def streamDeltas (parse : Str → Option ChatChunk) (events : List Str) : List Str :=
  events.filterMap (decodeEvent parse)

/-- `streamUpdateRef.current`: the pending-timer flag and the latest
accumulated text remembered for the next flush. -/
structure StreamUpdateRef where
  timer : Bool
  text : Str
deriving DecidableEq

/-- `scheduleAssistantUpdate`: remember the new total; when no timer is
pending, schedule one (the 40 ms flush), otherwise return and let the
pending timer pick the new total up. -/
def scheduleAssistantUpdate (r : StreamUpdateRef) (nextText : Str) : StreamUpdateRef :=
  let r := { r with text := nextText }
  if r.timer then r else { r with timer := true }

/-- The body of the scheduled timeout: when a timer is pending it fires,
writing the remembered text into the turn with the captured id (stamping
`assistantAt` when not already set) and clearing the timer flag. -/
def timerFire (entryId : Str) (now : Nat) (r : StreamUpdateRef) (history : List Turn) :
    StreamUpdateRef × List Turn :=
  if r.timer then
    ({ r with timer := false },
     history.map fun e =>
       if e.id = entryId then
         { e with assistant := r.text, assistantAt := some (e.assistantAt.getD now) }
       else e)
  else (r, history)

/-- The unmount cleanup effect of `useChat`: cancel a pending coalescing
timer. -/
def unmountCleanup (r : StreamUpdateRef) : StreamUpdateRef :=
  if r.timer then { r with timer := false } else r

/-- A Turn Accumulator run: the timer ref, the running `assistantText`
buffer, and the trace of texts written outward to the open turn. -/
structure AccRun where
  ref : StreamUpdateRef
  assistantText : Str
  emits : List Str
deriving DecidableEq

/-- The observable events of one accumulator lifetime: a decoded delta
arriving, the coalescing timeout firing, the stream-end flush, and the
abort-path discard. -/
inductive AccEvent where
  | append (delta : Str)
  | tick
  | flushNow
  | discard
deriving DecidableEq

/-- One accumulator step: `append` mirrors
`assistantText += delta.content; scheduleAssistantUpdate(...)`; `tick`
is the pending timeout firing (emit the remembered text, clear the
flag); `flushNow` is the stream-end epilogue (cancel the timer, emit the
accumulated text); `discard` is the abort path (cancel the timer, clear
the remembered text, write the empty string back to the turn). -/
def accStep (s : AccRun) (e : AccEvent) : AccRun :=
  match e with
  | .append d =>
    let t := s.assistantText ++ d
    { s with assistantText := t, ref := scheduleAssistantUpdate s.ref t }
  | .tick =>
    if s.ref.timer then
      { s with ref := { s.ref with timer := false }, emits := s.emits ++ [s.ref.text] }
    else s
  | .flushNow =>
    { s with ref := { s.ref with timer := false }, emits := s.emits ++ [s.assistantText] }
  | .discard =>
    { s with ref := ⟨false, []⟩, emits := s.emits ++ [[]] }

def accRun (s : AccRun) (es : List AccEvent) : AccRun := es.foldl accStep s

/-- The accumulator state at the start of a turn: no timer, empty
buffers, nothing emitted. -/
def accStart : AccRun := ⟨⟨false, []⟩, [], []⟩

/-- Decidable prefix test on character lists. -/
def isPre : Str → Str → Bool
  | [], _ => true
  | _ :: _, [] => false
  | a :: as, b :: bs => a = b && isPre as bs

/-- The engine state exposed by `useChat`: the turn list, the input
field, the submission status string, the id of the streaming turn, the
last error message, and the coalescing ref. -/
structure EngineState where
  history : List Turn
  input : Str
  status : Str
  streamingId : Option Str
  error : Str
  streamUpdate : StreamUpdateRef
deriving DecidableEq

/-- The per-submit environment: the props read by `handleSubmit` and the
opaque values produced during the call (`makeId()`, `new Date()`). -/
structure SubmitCtx where
  selectedModel : Str
  systemPrompt : Str
  sessionId : Option Str
  entryId : Str
  now : Nat
  endNow : Nat
  tickNow : Nat
deriving DecidableEq

/-- The fate of the opened stream.  Each delivered chunk carries a flag
saying whether the pending coalescing timer fires between this read and
the next (reads are the suspension points). -/
inductive StreamResult where
  | openFailed
  | ok (chunks : List (Str × Bool))
  | aborted (chunks : List (Str × Bool))
  | failed (chunks : List (Str × Bool)) (msg : Str)
deriving DecidableEq

/-- The state threaded through the read loop: the undecoded buffer, the
running assistant text, the coalescing ref and the turn list. -/
structure LoopState where
  buffer : Str
  assistantText : Str
  ref : StreamUpdateRef
  history : List Turn
deriving DecidableEq

/-- Processing one decoded event inside the read loop: a content delta
extends `assistantText` and schedules a coalesced update. -/
def applyEvent (parse : Str → Option ChatChunk) (ls : LoopState) (ev : Str) : LoopState :=
  match decodeEvent parse ev with
  | none => ls
  | some d =>
    let t := ls.assistantText ++ d
    { ls with assistantText := t, ref := scheduleAssistantUpdate ls.ref t }

/-- Reading one chunk: append it to the undecoded buffer, split complete
frames off, decode every event, and let the pending timer fire when the
chunk's flag says so. -/
def readChunk (parse : Str → Option ChatChunk) (entryId : Str) (tickNow : Nat)
    (ls : LoopState) (c : Str × Bool) : LoopState :=
  let p := parseSseEvents (ls.buffer ++ c.1)
  let ls := { ls with buffer := p.2 }
  let ls := p.1.foldl (applyEvent parse) ls
  if c.2 then
    let fh := timerFire entryId tickNow ls.ref ls.history
    { ls with ref := fh.1, history := fh.2 }
  else ls

def runLoop (parse : Str → Option ChatChunk) (entryId : Str) (tickNow : Nat)
    (ls : LoopState) (chunks : List (Str × Bool)) : LoopState :=
  chunks.foldl (readChunk parse entryId tickNow) ls

/-- What one `handleSubmit` call produced: the final engine state, the
persistence calls issued (role/content of each appended message), and
the `messages` window of the completion request (`none` when no request
was opened). -/
structure SubmitOutcome where
  state : EngineState
  persisted : List ChatMessage
  sent : Option (List ChatMessage)
deriving DecidableEq

def noSessionMsg : Str := "Create a chat to start messaging.".toList

def openFailMsg : Str := "The chat stream could not be started.".toList

def genericFailMsg : Str := "Something went wrong.".toList

/-- `handleSubmit` of `useChat.js` as a function of the stream outcome:
the guard conditions, the optimistic turn creation, the outbound window
(built over the pre-submit history held in `historyRef`), the
user-message persistence call, the incremental read loop, and the three
exits — normal end (flush, stamp `assistantAt`, persist the assistant
message, go idle), abort (discard partial content, go idle without an
error) and failure (discard partial content, go idle with an error). -/
def handleSubmit (parse : Str → Option ChatChunk) (ctx : SubmitCtx)
    (s : EngineState) (result : StreamResult) : SubmitOutcome :=
  if jsTrim s.input = [] ∨ ctx.selectedModel = [] ∨ s.status = "streaming".toList then
    ⟨s, [], none⟩
  else if ctx.sessionId = none then
    ⟨{ s with error := noSessionMsg }, [], none⟩
  else
    let userMessage := jsTrim s.input
    let newEntry : Turn := ⟨ctx.entryId, userMessage, [], ctx.now, none⟩
    let s1 : EngineState :=
      { s with
        status := "streaming".toList, error := [], input := [],
        history := s.history ++ [newEntry], streamingId := some ctx.entryId }
    let userCall : ChatMessage := ⟨"user".toList, userMessage⟩
    let window := buildMessages ctx.systemPrompt s.history userMessage
    match result with
    | .openFailed =>
      ⟨{ s1 with
          streamUpdate := ⟨false, []⟩,
          history := s1.history.map fun e =>
            if e.id = ctx.entryId then { e with assistant := [], assistantAt := none } else e,
          status := "idle".toList, error := openFailMsg, streamingId := none },
        [userCall], some window⟩
    | .ok chunks =>
      let ls := runLoop parse ctx.entryId ctx.tickNow ⟨[], [], s1.streamUpdate, s1.history⟩ chunks
      ⟨{ s1 with
          streamUpdate := ⟨false, ls.ref.text⟩,
          history := ls.history.map fun e =>
            if e.id = ctx.entryId then
              { e with
                assistant := ls.assistantText,
                assistantAt := some (e.assistantAt.getD ctx.endNow) }
            else e,
          status := "idle".toList, streamingId := none },
        [userCall, ⟨"assistant".toList, ls.assistantText⟩], some window⟩
    | .aborted chunks =>
      let ls := runLoop parse ctx.entryId ctx.tickNow ⟨[], [], s1.streamUpdate, s1.history⟩ chunks
      ⟨{ s1 with
          streamUpdate := ⟨false, []⟩,
          history := ls.history.map fun e =>
            if e.id = ctx.entryId then { e with assistant := [], assistantAt := none } else e,
          status := "idle".toList, streamingId := none },
        [userCall], some window⟩
    | .failed chunks msg =>
      let ls := runLoop parse ctx.entryId ctx.tickNow ⟨[], [], s1.streamUpdate, s1.history⟩ chunks
      ⟨{ s1 with
          streamUpdate := ⟨false, []⟩,
          history := ls.history.map fun e =>
            if e.id = ctx.entryId then { e with assistant := [], assistantAt := none } else e,
          status := "idle".toList,
          error := if msg = [] then genericFailMsg else msg,
          streamingId := none },
        [userCall], some window⟩

/-- The `sessionId` effect of `useChat`: on a session switch the
in-flight stream is aborted and the engine resets to idle with no
error. -/
def sessionChangeEffect (s : EngineState) : EngineState :=
  { s with status := "idle".toList, streamingId := none, error := [] }

/-- One persisted message row of a loaded session. -/
structure MsgRow where
  id : Str
  role : Str
  content : Str
  createdAt : Nat
deriving DecidableEq

/-- One step of `loadChat`'s turn reconstruction (the `forEach` body of
the landing page): the mutable `current` pointer is always the most
recently pushed turn, so filling it mutates the last element of the
accumulated list. -/
def loadChatStep (acc : List Turn) (m : MsgRow) : List Turn :=
  if m.role = "user".toList then
    acc ++ [⟨m.id, m.content, [], m.createdAt, none⟩]
  else if m.role = "assistant".toList then
    match acc.getLast? with
    | none => acc ++ [⟨m.id, [], m.content, m.createdAt, some m.createdAt⟩]
    | some t =>
      if t.assistant ≠ [] then
        acc ++ [⟨m.id, [], m.content, m.createdAt, some m.createdAt⟩]
      else
        acc.dropLast ++ [{ t with assistant := m.content, assistantAt := some m.createdAt }]
  else acc

def loadChatTurns (msgs : List MsgRow) : List Turn := msgs.foldl loadChatStep []

/-- The pairing rule in the spec's own terms, with an explicit open
turn: a user message opens a new turn (closing the previous one); an
assistant message fills the open turn when its assistant side is still
empty, and otherwise — or when no turn is open — starts its own turn
with an empty user side. -/
def reconPairingAux : Option Turn → List Turn → List MsgRow → List Turn
  | openT, closed, [] => closed ++ openT.toList
  | openT, closed, m :: rest =>
    if m.role = "user".toList then
      reconPairingAux (some ⟨m.id, m.content, [], m.createdAt, none⟩)
        (closed ++ openT.toList) rest
    else if m.role = "assistant".toList then
      match openT with
      | some t =>
        if t.assistant = [] then
          reconPairingAux
            (some { t with assistant := m.content, assistantAt := some m.createdAt })
            closed rest
        else
          reconPairingAux (some ⟨m.id, [], m.content, m.createdAt, some m.createdAt⟩)
            (closed ++ [t]) rest
      | none =>
        reconPairingAux (some ⟨m.id, [], m.content, m.createdAt, some m.createdAt⟩)
          closed rest
    else reconPairingAux openT closed rest

def reconPairing (msgs : List MsgRow) : List Turn := reconPairingAux none [] msgs

/-- A session row as listed in the sidebar. -/
structure ChatSessionRow where
  id : Str
  status : Str
deriving DecidableEq

/-- The landing page state the lifecycle handlers touch: the status
filter, the active selection, and the fetched list. -/
structure SessionsUI where
  chatFilter : Str
  activeChatId : Option Str
  chatSessions : List ChatSessionRow
deriving DecidableEq

/-- The server-side effect of one status-transition endpoint. -/
def serverSetStatus (store : List ChatSessionRow) (chatId : Str) (st : Str) :
    List ChatSessionRow :=
  store.map fun r => if r.id = chatId then { r with status := st } else r

/-- `loadChatSessions`: refetch the list filtered by the current status
filter. -/
def refetchSessions (store : List ChatSessionRow) (s : SessionsUI) : SessionsUI :=
  { s with chatSessions := store.filter fun r => decide (r.status = s.chatFilter) }

/-- `handleArchiveChatById`: archive on the server, refetch, and clear
the active selection when it was the archived chat. -/
def handleArchiveChatById (store : List ChatSessionRow) (s : SessionsUI) (chatId : Str) :
    List ChatSessionRow × SessionsUI :=
  if chatId = [] then (store, s)
  else
    let store := serverSetStatus store chatId ("archived".toList)
    let s := refetchSessions store s
    let s := if s.activeChatId = some chatId then { s with activeChatId := none } else s
    (store, s)

/-- `handleUnarchiveChatById`: unarchive on the server, refetch, and
clear the active selection when it was the unarchived chat. -/
def handleUnarchiveChatById (store : List ChatSessionRow) (s : SessionsUI) (chatId : Str) :
    List ChatSessionRow × SessionsUI :=
  if chatId = [] then (store, s)
  else
    let store := serverSetStatus store chatId ("active".toList)
    let s := refetchSessions store s
    let s := if s.activeChatId = some chatId then { s with activeChatId := none } else s
    (store, s)

/-- `handleDeleteChatById`: soft-delete on the server, refetch, and
clear the active selection when it was the deleted chat. -/
def handleDeleteChatById (store : List ChatSessionRow) (s : SessionsUI) (chatId : Str) :
    List ChatSessionRow × SessionsUI :=
  if chatId = [] then (store, s)
  else
    let store := serverSetStatus store chatId ("deleted".toList)
    let s := refetchSessions store s
    let s := if s.activeChatId = some chatId then { s with activeChatId := none } else s
    (store, s)

/-- `handleRestoreChatById`: restore on the server and refetch — the
active selection is left untouched. -/
def handleRestoreChatById (store : List ChatSessionRow) (s : SessionsUI) (chatId : Str) :
    List ChatSessionRow × SessionsUI :=
  if chatId = [] then (store, s)
  else
    let store := serverSetStatus store chatId ("active".toList)
    let s := refetchSessions store s
    (store, s)

theorem consHead_ne_nil (c : Char) (l : List Str) : consHead c l ≠ [] := by
  cases l <;> simp [consHead]

theorem splitOnNN_ne_nil (s : Str) : splitOnNN s ≠ [] := by
  match s with
  | [] => simp [splitOnNN]
  | [c] => simp [splitOnNN]
  | a :: b :: rest =>
    rw [splitOnNN]
    split
    · simp
    · exact consHead_ne_nil _ _

theorem lastRem_cons (x : Str) (l : List Str) (h : l ≠ []) :
    lastRem (x :: l) = lastRem l := by
  cases l with
  | nil => exact absurd rfl h
  | cons y ys => rfl

theorem dropLast_cons_ne (x : Str) (l : List Str) (h : l ≠ []) :
    (x :: l).dropLast = x :: l.dropLast := by
  cases l with
  | nil => exact absurd rfl h
  | cons y ys => rfl

theorem splitOnNN_cons_head (c : Char) (rest : Str)
    (h : ¬(c = '\n' ∧ rest.head? = some '\n')) :
    splitOnNN (c :: rest) = consHead c (splitOnNN rest) := by
  cases rest with
  | nil => rfl
  | cons b r =>
    have h' : ¬(c = '\n' ∧ b = '\n') := by simpa using h
    rw [splitOnNN, if_neg h']

theorem splitOnNN_nn (rest : Str) :
    splitOnNN ('\n' :: '\n' :: rest) = [] :: splitOnNN rest := by
  rw [splitOnNN, if_pos ⟨rfl, rfl⟩]

theorem joinNN_cons (x : Str) (l : List Str) (h : l ≠ []) :
    joinNN (x :: l) = x ++ '\n' :: '\n' :: joinNN l := by
  cases l with
  | nil => exact absurd rfl h
  | cons y ys => rfl

theorem joinNN_splitOnNN : ∀ s : Str, joinNN (splitOnNN s) = s
  | [] => rfl
  | [c] => rfl
  | a :: b :: rest => by
    by_cases hnn : a = '\n' ∧ b = '\n'
    · obtain ⟨ha, hb⟩ := hnn
      subst ha; subst hb
      rw [splitOnNN_nn, joinNN_cons _ _ (splitOnNN_ne_nil rest)]
      simpa using joinNN_splitOnNN rest
    · rw [splitOnNN_cons_head a (b :: rest) (by simpa using hnn)]
      have ih := joinNN_splitOnNN (b :: rest)
      rcases hS : splitOnNN (b :: rest) with _ | ⟨h1, t⟩
      · exact absurd hS (splitOnNN_ne_nil _)
      · rw [hS] at ih
        cases t with
        | nil =>
          simp only [joinNN] at ih
          simp [consHead, joinNN, ih]
        | cons u us =>
          rw [joinNN_cons _ _ (by simp)] at ih
          simp only [consHead]
          rw [joinNN_cons _ _ (by simp), List.cons_append, ih]

theorem splitOnNN_singleton {s t : Str} (h : splitOnNN s = [t]) : t = s := by
  have := joinNN_splitOnNN s
  rw [h] at this
  simpa [joinNN] using this

theorem splitOnNN_append : ∀ a b : Str,
    splitOnNN (a ++ b) =
      (splitOnNN a).dropLast ++ splitOnNN (lastRem (splitOnNN a) ++ b)
  | [], b => by simp [splitOnNN, lastRem]
  | [c], b => by simp [splitOnNN, lastRem]
  | a :: b' :: rest, b => by
    by_cases hnn : a = '\n' ∧ b' = '\n'
    · obtain ⟨ha, hb⟩ := hnn
      subst ha; subst hb
      have hne := splitOnNN_ne_nil rest
      rw [List.cons_append, List.cons_append, splitOnNN_nn, splitOnNN_nn,
        splitOnNN_append rest b,
        dropLast_cons_ne _ _ hne, lastRem_cons _ _ hne, List.cons_append]
    · have hstep : splitOnNN (a :: b' :: rest ++ b)
          = consHead a (splitOnNN (b' :: rest ++ b)) := by
        apply splitOnNN_cons_head
        intro hc
        rcases hc with ⟨x, y⟩
        simp at y
        exact hnn ⟨x, y⟩
      have hstep2 : splitOnNN (a :: b' :: rest) = consHead a (splitOnNN (b' :: rest)) :=
        splitOnNN_cons_head a (b' :: rest) (by simpa using hnn)
      have ih := splitOnNN_append (b' :: rest) b
      rcases hS : splitOnNN (b' :: rest) with _ | ⟨h1, t⟩
      · exact absurd hS (splitOnNN_ne_nil _)
      · rw [hS] at ih hstep2
        cases t with
        | nil =>
          have hh1 : h1 = b' :: rest := splitOnNN_singleton hS
          have hhead : ¬(a = '\n' ∧ (h1 ++ b).head? = some '\n') := by
            subst hh1
            simpa using hnn
          simp only [List.dropLast, lastRem] at ih ⊢
          rw [hstep2]
          simp only [consHead, List.dropLast, lastRem, List.nil_append]
          have : splitOnNN (a :: b' :: rest ++ b) = consHead a (splitOnNN (h1 ++ b)) := by
            rw [hstep, ih]
            simp only [List.nil_append]
          rw [this, ← splitOnNN_cons_head a (h1 ++ b) hhead]
          subst hh1
          rfl
        | cons u us =>
          have htne : (u :: us : List Str) ≠ [] := by simp
          rw [dropLast_cons_ne _ _ htne, lastRem_cons _ _ htne] at ih
          rw [hstep, ih, hstep2]
          simp only [consHead, List.cons_append]
          rw [dropLast_cons_ne _ _ htne, lastRem_cons _ _ htne,
            List.cons_append]

theorem splitOnNN_of_noNN : ∀ s : Str, noNN s = true → splitOnNN s = [s]
  | [], _ => rfl
  | [c], _ => rfl
  | a :: b :: rest, h => by
    rw [noNN] at h
    have h1 : ¬(a = '\n' ∧ b = '\n') := by
      intro ⟨x, y⟩
      subst x; subst y
      simp at h
    have h2 : noNN (b :: rest) = true := by
      rcases Bool.and_eq_true_iff.mp h with ⟨_, h2⟩
      exact h2
    rw [splitOnNN_cons_head a (b :: rest) (by simpa using h1),
      splitOnNN_of_noNN (b :: rest) h2]
    rfl

theorem noNN_lastRem : ∀ s : Str, noNN (lastRem (splitOnNN s)) = true
  | [] => rfl
  | [c] => rfl
  | a :: b :: rest => by
    by_cases hnn : a = '\n' ∧ b = '\n'
    · obtain ⟨ha, hb⟩ := hnn
      subst ha; subst hb
      rw [splitOnNN_nn, lastRem_cons _ _ (splitOnNN_ne_nil rest)]
      exact noNN_lastRem rest
    · rw [splitOnNN_cons_head a (b :: rest) (by simpa using hnn)]
      have ih := noNN_lastRem (b :: rest)
      rcases hS : splitOnNN (b :: rest) with _ | ⟨h1, t⟩
      · exact absurd hS (splitOnNN_ne_nil _)
      · rw [hS] at ih
        cases t with
        | nil =>
          have hh1 : h1 = b :: rest := splitOnNN_singleton hS
          subst hh1
          simp only [consHead, lastRem] at ih ⊢
          rw [noNN, ih]
          have hb : (a = '\n' && b = '\n') = false := by
            by_cases hA : a = '\n'
            · by_cases hB : b = '\n'
              · exact absurd ⟨hA, hB⟩ hnn
              · simp [hB]
            · simp [hA]
          rw [hb]
          rfl
        | cons u us =>
          have htne : (u :: us : List Str) ≠ [] := by simp
          rw [lastRem_cons _ _ htne] at ih
          simp only [consHead]
          rw [lastRem_cons _ _ (by simp)]
          exact ih

theorem mem_joinNN_of_mem_lastRem : ∀ (l : List Str) (c : Char),
    c ∈ lastRem l → c ∈ joinNN l
  | [], c, h => by simp [lastRem] at h
  | [x], c, h => by simpa [lastRem, joinNN] using h
  | x :: y :: rest, c, h => by
    rw [lastRem_cons _ _ (by simp)] at h
    rw [joinNN_cons _ _ (by simp)]
    have := mem_joinNN_of_mem_lastRem (y :: rest) c h
    simp only [List.mem_append, List.mem_cons]
    right; right; right
    exact this

theorem mem_of_mem_lastRem_splitOnNN {s : Str} {c : Char}
    (h : c ∈ lastRem (splitOnNN s)) : c ∈ s := by
  have := mem_joinNN_of_mem_lastRem (splitOnNN s) c h
  rwa [joinNN_splitOnNN] at this

theorem stripCR_idem_of_mem {s : Str} (h : ∀ c ∈ s, c ≠ '\r') :
    stripCR s = s := by
  rw [stripCR, List.filter_eq_self]
  intro a ha
  simpa using h a ha

theorem not_cr_mem_stripCR (s : Str) : ∀ c ∈ stripCR s, c ≠ '\r' := by
  intro c hc
  rw [stripCR, List.mem_filter] at hc
  simpa using hc.2

theorem stripCR_snd_parse (buffer : Str) :
    stripCR (parseSseEvents buffer).2 = (parseSseEvents buffer).2 := by
  apply stripCR_idem_of_mem
  intro c hc
  exact not_cr_mem_stripCR buffer c
    (mem_of_mem_lastRem_splitOnNN hc)

theorem noNN_snd_parse (buffer : Str) :
    noNN (parseSseEvents buffer).2 = true :=
  noNN_lastRem (stripCR buffer)

theorem stripCR_append (a b : Str) : stripCR (a ++ b) = stripCR a ++ stripCR b := by
  simp [stripCR]

theorem dropLast_append_ne : ∀ (X Y : List Str), Y ≠ [] →
    (X ++ Y).dropLast = X ++ Y.dropLast
  | [], Y, _ => by simp
  | x :: xs, Y, h => by
    have hne : xs ++ Y ≠ [] := by
      intro hc
      rcases List.append_eq_nil.mp hc with ⟨_, h2⟩
      exact h h2
    rw [List.cons_append, dropLast_cons_ne _ _ hne, dropLast_append_ne xs Y h,
      List.cons_append]

theorem lastRem_append_ne : ∀ (X Y : List Str), Y ≠ [] →
    lastRem (X ++ Y) = lastRem Y
  | [], Y, _ => by simp
  | x :: xs, Y, h => by
    have hne : xs ++ Y ≠ [] := by
      intro hc
      rcases List.append_eq_nil.mp hc with ⟨_, h2⟩
      exact h h2
    rw [List.cons_append, lastRem_cons _ _ hne, lastRem_append_ne xs Y h]

theorem parse_append (a b : Str) :
    parseSseEvents (a ++ b) =
      ((parseSseEvents a).1 ++ (parseSseEvents ((parseSseEvents a).2 ++ b)).1,
       (parseSseEvents ((parseSseEvents a).2 ++ b)).2) := by
  have hcr : stripCR ((parseSseEvents a).2 ++ b)
      = (parseSseEvents a).2 ++ stripCR b := by
    rw [stripCR_append, stripCR_snd_parse]
  have hsplit : splitOnNN (stripCR (a ++ b))
      = (splitOnNN (stripCR a)).dropLast
        ++ splitOnNN (lastRem (splitOnNN (stripCR a)) ++ stripCR b) := by
    rw [stripCR_append, splitOnNN_append]
  simp only [parseSseEvents] at *
  rw [hcr, hsplit]
  have hne := splitOnNN_ne_nil (lastRem (splitOnNN (stripCR a)) ++ stripCR b)
  rw [dropLast_append_ne _ _ hne, lastRem_append_ne _ _ hne,
    List.filterMap_append]

theorem feedChunks_eq : ∀ (cs : List Str) (rem : Str),
    stripCR rem = rem → noNN rem = true →
    feedChunks rem cs = parseSseEvents (rem ++ cs.flatten)
  | [], rem, hcr, hnn => by
    simp only [feedChunks, List.flatten_nil, List.append_nil, parseSseEvents]
    rw [hcr, splitOnNN_of_noNN rem hnn]
    rfl
  | c :: cs, rem, hcr, hnn => by
    rw [feedChunks]
    have ih := feedChunks_eq cs (parseSseEvents (rem ++ c)).2
      (stripCR_snd_parse (rem ++ c)) (noNN_snd_parse (rem ++ c))
    rw [ih]
    have hj : rem ++ (c :: cs).flatten = (rem ++ c) ++ cs.flatten := by
      rw [List.flatten_cons, List.append_assoc]
    rw [hj, parse_append (rem ++ c) cs.flatten]

theorem foldl_push_eq (l : List Turn) : ∀ init : List ChatMessage,
    l.foldl
      (fun ms entry =>
        let ms := ms ++ [⟨"user".toList, entry.user⟩]
        if entry.assistant ≠ [] then ms ++ [⟨"assistant".toList, entry.assistant⟩] else ms)
      init
    = init ++ (l.map expandTurn).flatten := by
  induction l with
  | nil => intro init; simp
  | cons t rest ih =>
    intro init
    rw [List.foldl_cons, ih]
    by_cases h : t.assistant = []
    · simp [expandTurn, h]
    · simp [expandTurn, h]

/-- C3: Window capping — the outbound window built by `buildMessages` is
the trimmed system prompt (only when non-empty), followed by exactly the
most recent `MAX_HISTORY_TURNS = 12` prior turns (a suffix of the
history, of length `min 12 (number of prior turns)`), each expanded to a
user message and, when the turn has assistant text, an assistant
message, in chronological order, followed by the new user message; with
20 prior turns, exactly the most recent 12 (those after the first 8)
appear. -/
theorem buildMessages_window (sp : Str) (h : List Turn) (u : Str) :
    buildMessages sp h u
      = (if jsTrim sp = [] then [] else [⟨"system".toList, jsTrim sp⟩])
        ++ ((h.drop (h.length - MAX_HISTORY_TURNS)).map expandTurn).flatten
        ++ [⟨"user".toList, u⟩]
    ∧ (h.drop (h.length - MAX_HISTORY_TURNS)) <:+ h
    ∧ (h.drop (h.length - MAX_HISTORY_TURNS)).length = min MAX_HISTORY_TURNS h.length
    ∧ (h.length = 20 → h.drop (h.length - MAX_HISTORY_TURNS) = h.drop 8) := by
  refine ⟨?_, ?_, ?_, ?_⟩
  · simp only [buildMessages]
    rw [foldl_push_eq]
    by_cases hsp : jsTrim sp = []
    · simp [hsp]
    · simp [hsp, List.append_assoc]
  · exact List.drop_suffix _ _
  · rw [List.length_drop, MAX_HISTORY_TURNS]
    omega
  · intro h20
    rw [h20, MAX_HISTORY_TURNS]

theorem buildMessages_window_witness :
    (List.replicate 20 (⟨[], "u".toList, [], 0, none⟩ : Turn)).drop
        ((List.replicate 20 (⟨[], "u".toList, [], 0, none⟩ : Turn)).length - MAX_HISTORY_TURNS)
      = (List.replicate 20 (⟨[], "u".toList, [], 0, none⟩ : Turn)).drop 8 :=
  (buildMessages_window [] (List.replicate 20 ⟨[], "u".toList, [], 0, none⟩) []).2.2.2
    (by simp)

/-- C4: Malformed-frame resilience — a frame whose payload fails
structured parsing yields no delta and is skipped without affecting the
surrounding frames; for three frames of which only the second is
unparsable, exactly the first and third deltas are produced, in order,
and the read loop accumulates exactly their concatenation. -/
theorem decode_skips_malformed (parse : Str → Option ChatChunk)
    (pre post : List Str) (e e1 e2 e3 d1 d3 : Str)
    (hmal : parse e = none) (hmal2 : parse e2 = none)
    (h1 : decodeEvent parse e1 = some d1) (h3 : decodeEvent parse e3 = some d3) :
    streamDeltas parse (pre ++ e :: post) = streamDeltas parse pre ++ streamDeltas parse post
    ∧ streamDeltas parse [e1, e2, e3] = [d1, d3]
    ∧ ∀ ls : LoopState,
        (List.foldl (applyEvent parse) ls [e1, e2, e3]).assistantText
          = ls.assistantText ++ (d1 ++ d3) := by
  have hnone : decodeEvent parse e = none := by
    simp only [decodeEvent, hmal]
    split <;> rfl
  have hnone2 : decodeEvent parse e2 = none := by
    simp only [decodeEvent, hmal2]
    split <;> rfl
  refine ⟨?_, ?_, ?_⟩
  · simp [streamDeltas, hnone]
  · simp [streamDeltas, hnone2, h1, h3]
  · intro ls
    simp [applyEvent, hnone2, h1, h3, List.append_assoc]

theorem decode_skips_malformed_witness :
    streamDeltas
        (fun s => if s = "A".toList then some ⟨some [⟨some ⟨some ("x".toList)⟩⟩]⟩ else none)
        [("A".toList), ("oops".toList), ("A".toList)]
      = [("x".toList), ("x".toList)] :=
  (decode_skips_malformed
    (fun s => if s = "A".toList then some ⟨some [⟨some ⟨some ("x".toList)⟩⟩]⟩ else none)
    [] [] ("oops".toList) ("A".toList) ("oops".toList) ("A".toList) ("x".toList) ("x".toList)
    (by decide) (by decide) (by decide) (by decide)).2.1

theorem accRun_append_only : ∀ (ds : List Str) (s : AccRun),
    (accRun s (ds.map AccEvent.append)).emits = s.emits
    ∧ (accRun s (ds.map AccEvent.append)).assistantText = s.assistantText ++ ds.flatten
  | [], s => by simp [accRun]
  | d :: ds, s => by
    have ih := accRun_append_only ds (accStep s (.append d))
    simp only [accRun, List.map_cons, List.foldl_cons] at ih ⊢
    refine ⟨?_, ?_⟩
    · rw [ih.1]
      simp [accStep]
    · rw [ih.2]
      simp [accStep, List.append_assoc]

theorem accRun_split (s : AccRun) (l1 l2 : List AccEvent) :
    accRun s (l1 ++ l2) = accRun (accRun s l1) l2 := by
  simp [accRun, List.foldl_append]

/-- C5: Coalescing correctness — appending any sequence of deltas while
one coalescing timer window stays pending (no tick in between) and then
flushing at stream end produces exactly one emitted update, carrying the
concatenation of all deltas; in particular for "He", "llo", " world"
the single update equals "Hello world". -/
theorem coalescing_single_flush :
    (∀ ds : List Str,
      (accRun accStart (ds.map AccEvent.append ++ [AccEvent.flushNow])).emits = [ds.flatten])
    ∧ (accRun accStart
        [AccEvent.append ("He".toList), AccEvent.append ("llo".toList),
         AccEvent.append (" world".toList), AccEvent.flushNow]).emits
      = [("Hello world".toList)] := by
  have H : ∀ ds : List Str,
      (accRun accStart (ds.map AccEvent.append ++ [AccEvent.flushNow])).emits = [ds.flatten] := by
    intro ds
    rw [accRun_split]
    have h := accRun_append_only ds accStart
    show (accStep (accRun accStart (ds.map AccEvent.append)) AccEvent.flushNow).emits = _
    simp only [accStep]
    rw [h.1, h.2]
    simp [accStart]
  refine ⟨H, ?_⟩
  have := H [("He".toList), ("llo".toList), (" world".toList)]
  simpa using this

theorem reconAux_eq : ∀ (msgs : List MsgRow) (closed : List Turn) (openT : Option Turn),
    (openT = none → closed = []) →
    msgs.foldl loadChatStep (closed ++ openT.toList) = reconPairingAux openT closed msgs
  | [], closed, openT, _ => by simp [reconPairingAux]
  | m :: rest, closed, openT, hinv => by
    by_cases hu : m.role = "user".toList
    · rw [List.foldl_cons]
      have hstep : loadChatStep (closed ++ openT.toList) m
          = (closed ++ openT.toList) ++ [⟨m.id, m.content, [], m.createdAt, none⟩] := by
        simp only [loadChatStep]
        rw [if_pos hu]
      rw [hstep]
      simp only [reconPairingAux]
      rw [if_pos hu]
      have ih := reconAux_eq rest (closed ++ openT.toList)
        (some ⟨m.id, m.content, [], m.createdAt, none⟩) (fun hc => nomatch hc)
      simpa using ih
    · by_cases ha : m.role = "assistant".toList
      · cases openT with
        | none =>
          have hcl : closed = [] := hinv rfl
          subst hcl
          simp only [Option.toList_none, List.append_nil, List.nil_append]
          rw [List.foldl_cons]
          have hstep : loadChatStep [] m
              = [⟨m.id, [], m.content, m.createdAt, some m.createdAt⟩] := by
            simp only [loadChatStep]
            rw [if_neg hu, if_pos ha]
            rfl
          rw [hstep]
          simp only [reconPairingAux]
          rw [if_neg hu, if_pos ha]
          have ih := reconAux_eq rest []
            (some ⟨m.id, [], m.content, m.createdAt, some m.createdAt⟩) (fun hc => nomatch hc)
          simpa using ih
        | some t =>
          simp only [Option.toList_some]
          rw [List.foldl_cons]
          by_cases hta : t.assistant = []
          · have hstep : loadChatStep (closed ++ [t]) m
                = closed ++ [{ t with assistant := m.content, assistantAt := some m.createdAt }] := by
              simp only [loadChatStep]
              rw [if_neg hu, if_pos ha, List.getLast?_concat]
              dsimp only
              have hne : ¬(t.assistant ≠ []) := fun hc => hc hta
              rw [if_neg hne, List.dropLast_concat]
            rw [hstep]
            simp only [reconPairingAux]
            rw [if_neg hu, if_pos ha]
            have ih := reconAux_eq rest closed
              (some { t with assistant := m.content, assistantAt := some m.createdAt })
              (fun hc => nomatch hc)
            simp only [Option.toList_some] at ih
            simpa [hta] using ih
          · have hstep : loadChatStep (closed ++ [t]) m
                = (closed ++ [t])
                  ++ [(⟨m.id, [], m.content, m.createdAt, some m.createdAt⟩ : Turn)] := by
              simp only [loadChatStep]
              rw [if_neg hu, if_pos ha, List.getLast?_concat]
              dsimp only
              rw [if_pos hta]
            rw [hstep]
            simp only [reconPairingAux]
            rw [if_neg hu, if_pos ha]
            have ih := reconAux_eq rest (closed ++ [t])
              (some ⟨m.id, [], m.content, m.createdAt, some m.createdAt⟩)
              (fun hc => nomatch hc)
            simp only [Option.toList_some] at ih
            simpa [hta] using ih
      · rw [List.foldl_cons]
        have hstep : loadChatStep (closed ++ openT.toList) m = closed ++ openT.toList := by
          simp only [loadChatStep]
          rw [if_neg hu, if_neg ha]
        rw [hstep]
        simp only [reconPairingAux]
        rw [if_neg hu, if_neg ha]
        exact reconAux_eq rest closed openT hinv

/-- C6: Turn reconstruction — rebuilding the turn list from a persisted
message log by `loadChat`'s fold coincides, for every message sequence
(including orphaned or out-of-order rows), with the pairing rule: a user
message opens a new turn, a following assistant message fills the open
turn's assistant side, and an assistant message with no open turn or
whose open turn already has assistant content starts its own turn with
an empty user side. -/
theorem loadChat_reconstruction (msgs : List MsgRow) :
    loadChatTurns msgs = reconPairing msgs := by
  have := reconAux_eq msgs [] none (fun _ => rfl)
  simpa [loadChatTurns, reconPairing] using this

/-- C7: Submit guards — `handleSubmit` is a silent no-op (state, issued
persistence calls and opened stream all unchanged) whenever the trimmed
input is empty, no model is selected, or the engine is already
streaming; when the guards pass but no session id is bound, it only
surfaces the validation message and opens no stream. -/
theorem submit_guards (parse : Str → Option ChatChunk) (ctx : SubmitCtx)
    (s : EngineState) (result : StreamResult) :
    ((jsTrim s.input = [] ∨ ctx.selectedModel = [] ∨ s.status = "streaming".toList) →
      handleSubmit parse ctx s result = ⟨s, [], none⟩)
    ∧ (jsTrim s.input ≠ [] → ctx.selectedModel ≠ [] → s.status ≠ "streaming".toList →
       ctx.sessionId = none →
      handleSubmit parse ctx s result = ⟨{ s with error := noSessionMsg }, [], none⟩) := by
  constructor
  · intro hcond
    rw [handleSubmit, if_pos hcond]
  · intro h1 h2 h3 h4
    have hng : ¬(jsTrim s.input = [] ∨ ctx.selectedModel = []
        ∨ s.status = "streaming".toList) := by
      intro hc
      rcases hc with hc | hc | hc
      · exact h1 hc
      · exact h2 hc
      · exact h3 hc
    rw [handleSubmit, if_neg hng, if_pos h4]

theorem submit_guards_witness :
    handleSubmit (fun _ => none)
        ⟨("m".toList), [], some ("s1".toList), ("e1".toList), 0, 1, 2⟩
        ⟨[], [], ("idle".toList), none, [], ⟨false, []⟩⟩ StreamResult.openFailed
      = ⟨⟨[], [], ("idle".toList), none, [], ⟨false, []⟩⟩, [], none⟩
    ∧ handleSubmit (fun _ => none)
        ⟨("m".toList), [], none, ("e1".toList), 0, 1, 2⟩
        ⟨[], ("hi".toList), ("idle".toList), none, [], ⟨false, []⟩⟩ StreamResult.openFailed
      = ⟨⟨[], ("hi".toList), ("idle".toList), none, noSessionMsg, ⟨false, []⟩⟩, [], none⟩ := by
  constructor
  · exact (submit_guards (fun _ => none)
      ⟨("m".toList), [], some ("s1".toList), ("e1".toList), 0, 1, 2⟩
      ⟨[], [], ("idle".toList), none, [], ⟨false, []⟩⟩ StreamResult.openFailed).1
      (by decide)
  · exact (submit_guards (fun _ => none)
      ⟨("m".toList), [], none, ("e1".toList), 0, 1, 2⟩
      ⟨[], ("hi".toList), ("idle".toList), none, [], ⟨false, []⟩⟩ StreamResult.openFailed).2
      (by decide) (by decide) (by decide) rfl

theorem restore_keeps_selection_cex :
    (handleRestoreChatById [⟨("c1".toList), ("deleted".toList)⟩]
        ⟨("deleted".toList), some ("c1".toList), [⟨("c1".toList), ("deleted".toList)⟩]⟩
        ("c1".toList)).2.activeChatId ≠ none
    ∧ (handleRestoreChatById [⟨("c1".toList), ("deleted".toList)⟩]
        ⟨("deleted".toList), some ("c1".toList), [⟨("c1".toList), ("deleted".toList)⟩]⟩
        ("c1".toList)).2.activeChatId = some ("c1".toList)
    ∧ (handleRestoreChatById [⟨("c1".toList), ("deleted".toList)⟩]
        ⟨("deleted".toList), some ("c1".toList), [⟨("c1".toList), ("deleted".toList)⟩]⟩
        ("c1".toList)).1 = [⟨("c1".toList), ("active".toList)⟩]
    ∧ (handleRestoreChatById [⟨("c1".toList), ("deleted".toList)⟩]
        ⟨("deleted".toList), some ("c1".toList), [⟨("c1".toList), ("deleted".toList)⟩]⟩
        ("c1".toList)).2.chatFilter = ("deleted".toList) := by
  refine ⟨?_, ?_, ?_, ?_⟩ <;> decide

/-- C9 (amended): after archive, unarchive and soft-delete the active
selection is cleared whenever the transitioned session was the selected
one (whether or not its new status matches the current filter); after
restore the active selection is always left unchanged, even when the
restored session no longer matches the current filter. -/
theorem status_transition_selection_amended (store : List ChatSessionRow)
    (s : SessionsUI) (chatId : Str) (h : chatId ≠ []) :
    ((handleArchiveChatById store s chatId).2.activeChatId
      = if s.activeChatId = some chatId then none else s.activeChatId)
    ∧ ((handleUnarchiveChatById store s chatId).2.activeChatId
      = if s.activeChatId = some chatId then none else s.activeChatId)
    ∧ ((handleDeleteChatById store s chatId).2.activeChatId
      = if s.activeChatId = some chatId then none else s.activeChatId)
    ∧ (handleRestoreChatById store s chatId).2.activeChatId = s.activeChatId := by
  refine ⟨?_, ?_, ?_, ?_⟩
  · rw [handleArchiveChatById, if_neg h]
    by_cases hs : s.activeChatId = some chatId <;>
      simp [refetchSessions, hs]
  · rw [handleUnarchiveChatById, if_neg h]
    by_cases hs : s.activeChatId = some chatId <;>
      simp [refetchSessions, hs]
  · rw [handleDeleteChatById, if_neg h]
    by_cases hs : s.activeChatId = some chatId <;>
      simp [refetchSessions, hs]
  · rw [handleRestoreChatById, if_neg h]
    simp [refetchSessions]

theorem status_transition_selection_amended_witness :
    (handleArchiveChatById [] ⟨("active".toList), some ("c1".toList), []⟩
        ("c1".toList)).2.activeChatId
      = if (some ("c1".toList) : Option Str) = some ("c1".toList) then none
        else some ("c1".toList) :=
  (status_transition_selection_amended [] ⟨("active".toList), some ("c1".toList), []⟩
    ("c1".toList) (by decide)).1

/-- C1: Frame Parser chunk-boundary invariance — for every frame buffer
and every way of splitting it into chunks, feeding the chunks
sequentially to `parseSseEvents` (prefixing each call's input with the
previous call's remainder) yields the same ordered sequence of frame
payloads (and the same final remainder) as feeding the entire buffer in
one call. -/
theorem parseSseEvents_chunk_invariant (cs : List Str) :
    feedChunks [] cs = parseSseEvents cs.flatten := by
  have := feedChunks_eq cs [] rfl rfl
  simpa using this

theorem mem_of_mem_getLast? {α : Type} {l : List α} {x : α} (h : x ∈ l.getLast?) : x ∈ l := by
  rcases List.mem_getLast?_eq_getLast h with ⟨hne, hx⟩
  subst hx
  exact List.getLast_mem hne

theorem isPre_refl : ∀ a : Str, isPre a a = true
  | [] => rfl
  | c :: cs => by simp [isPre, isPre_refl cs]

theorem isPre_extend : ∀ a b c : Str, isPre a b = true → isPre a (b ++ c) = true
  | [], _, _, _ => rfl
  | x :: xs, [], _, h => by simp [isPre] at h
  | x :: xs, y :: ys, c, h => by
    simp only [isPre, Bool.and_eq_true, decide_eq_true_eq] at h
    simp only [List.cons_append, isPre, Bool.and_eq_true, decide_eq_true_eq]
    exact ⟨h.1, isPre_extend xs ys c h.2⟩

theorem accRun_monotone_aux : ∀ (es : List AccEvent) (s : AccRun),
    (∀ e ∈ es, e = AccEvent.tick ∨ ∃ d, e = AccEvent.append d) →
    s.ref.text = s.assistantText →
    List.Chain' (fun a b => isPre a b = true) s.emits →
    (∀ x ∈ s.emits, isPre x s.assistantText = true) →
    List.Chain' (fun a b => isPre a b = true) (accRun s es).emits
    ∧ (∀ x ∈ (accRun s es).emits, isPre x (accRun s es).assistantText = true)
  | [], _, _, _, h2, h3 => ⟨h2, h3⟩
  | e :: rest, s, hok, h1, h2, h3 => by
    have hrest : ∀ x ∈ rest, x = AccEvent.tick ∨ ∃ d, x = AccEvent.append d :=
      fun x hx => hok x (List.mem_cons_of_mem _ hx)
    have hacc : accRun s (e :: rest) = accRun (accStep s e) rest := rfl
    rw [hacc]
    rcases hok e (List.mem_cons_self _ _) with htick | ⟨d, hd⟩
    · subst htick
      by_cases ht : s.ref.timer = true
      · have hstep : accStep s AccEvent.tick
            = { s with
                ref := { s.ref with timer := false },
                emits := s.emits ++ [s.ref.text] } := by
          simp [accStep, ht]
        rw [hstep]
        apply accRun_monotone_aux rest _ hrest
        · show s.ref.text = s.assistantText
          exact h1
        · show List.Chain' (fun a b => isPre a b = true) (s.emits ++ [s.ref.text])
          rw [h1]
          refine List.Chain'.append h2 (List.chain'_singleton _) ?_
          intro x hx y hy
          simp only [List.head?_cons, Option.mem_def, Option.some.injEq] at hy
          subst hy
          exact h3 x (mem_of_mem_getLast? hx)
        · intro x hx
          show isPre x s.assistantText = true
          rcases List.mem_append.mp hx with hx | hx
          · exact h3 x hx
          · rw [h1] at hx
            simp only [List.mem_singleton] at hx
            subst hx
            exact isPre_refl _
      · have hstep : accStep s AccEvent.tick = s := by
          simp [accStep, ht]
        rw [hstep]
        exact accRun_monotone_aux rest s hrest h1 h2 h3
    · subst hd
      have hstep : accStep s (AccEvent.append d)
          = { s with
              assistantText := s.assistantText ++ d,
              ref := scheduleAssistantUpdate s.ref (s.assistantText ++ d) } := rfl
      rw [hstep]
      apply accRun_monotone_aux rest _ hrest
      · show (scheduleAssistantUpdate s.ref (s.assistantText ++ d)).text = s.assistantText ++ d
        simp only [scheduleAssistantUpdate]
        split <;> rfl
      · exact h2
      · intro x hx
        exact isPre_extend x s.assistantText d (h3 x hx)

/-- C8: Coalescing emission monotonicity — over any run of delta
appends and timer ticks, the texts the coalescing timer writes outward
are monotonically increasing prefixes of each other and of the final
accumulated content; the timer is cancelled by the abort-path discard,
by the stream-end flush, by the unmount cleanup, and at the end of every
accepted submit; and a firing timer never touches a turn other than the
one whose id it captured. -/
theorem coalescing_emissions_monotone
    (es : List AccEvent)
    (hok : ∀ e ∈ es, e = AccEvent.tick ∨ ∃ d, e = AccEvent.append d)
    (r : StreamUpdateRef) (a : AccRun) (entryId : Str) (now : Nat) (hist : List Turn)
    (parse : Str → Option ChatChunk) (ctx : SubmitCtx) (s : EngineState)
    (result : StreamResult)
    (hg1 : jsTrim s.input ≠ []) (hg2 : ctx.selectedModel ≠ [])
    (hg3 : s.status ≠ "streaming".toList) (hg4 : ctx.sessionId ≠ none) :
    (List.Chain' (fun x y => isPre x y = true) (accRun accStart es).emits
      ∧ ∀ x ∈ (accRun accStart es).emits, isPre x (accRun accStart es).assistantText = true)
    ∧ (accStep a AccEvent.discard).ref.timer = false
    ∧ (accStep a AccEvent.flushNow).ref.timer = false
    ∧ (unmountCleanup r).timer = false
    ∧ (∀ t ∈ hist, t.id ≠ entryId → t ∈ (timerFire entryId now r hist).2)
    ∧ (handleSubmit parse ctx s result).state.streamUpdate.timer = false := by
  have hng : ¬(jsTrim s.input = [] ∨ ctx.selectedModel = []
      ∨ s.status = "streaming".toList) := by
    intro hc
    rcases hc with hc | hc | hc
    · exact hg1 hc
    · exact hg2 hc
    · exact hg3 hc
  refine ⟨?_, rfl, rfl, ?_, ?_, ?_⟩
  · exact accRun_monotone_aux es accStart hok rfl List.chain'_nil
      (fun x hx => absurd hx (List.not_mem_nil x))
  · by_cases hrt : r.timer = true
    · simp [unmountCleanup, hrt]
    · simp [unmountCleanup, hrt]
  · intro t ht hne
    simp only [timerFire]
    split
    · exact List.mem_map.mpr ⟨t, ht, if_neg hne⟩
    · exact ht
  · rw [handleSubmit, if_neg hng, if_neg hg4]
    cases result <;> rfl

theorem coalescing_emissions_monotone_witness :
    (unmountCleanup ⟨true, []⟩).timer = false :=
  (coalescing_emissions_monotone [] (fun e he => absurd he (List.not_mem_nil e))
    ⟨true, []⟩ accStart [] 0 [] (fun _ => none)
    ⟨("m".toList), [], some ("s1".toList), ("e1".toList), 0, 1, 2⟩
    ⟨[], ("hi".toList), ("idle".toList), none, [], ⟨false, []⟩⟩
    StreamResult.openFailed
    (by decide) (by decide) (by decide) (by decide)).2.2.2.1

theorem turn_update_id (t : Turn) (a : Str) (o : Option Nat) :
    ({ t with assistant := a, assistantAt := o } : Turn).id = t.id := rfl

theorem turn_update_comp (t : Turn) (a1 a : Str) (o1 o : Option Nat) :
    ({ ({ t with assistant := a1, assistantAt := o1 } : Turn) with
        assistant := a, assistantAt := o } : Turn)
      = { t with assistant := a, assistantAt := o } := rfl

theorem map_untouched : ∀ (g : Turn → Turn) (A : List Turn) (entryId : Str),
    (∀ e ∈ A, e.id ≠ entryId) →
    A.map (fun e => if e.id = entryId then g e else e) = A
  | _, [], _, _ => rfl
  | g, x :: xs, entryId, hA => by
    rw [List.map_cons, if_neg (hA x (List.mem_cons_self _ _)),
      map_untouched g xs entryId (fun e he => hA e (List.mem_cons_of_mem _ he))]

theorem map_if_id (f : Turn → Turn) (A : List Turn) (t : Turn) (entryId : Str)
    (hA : ∀ e ∈ A, e.id ≠ entryId) (ht : t.id = entryId) :
    (A ++ [t]).map (fun e => if e.id = entryId then f e else e) = A ++ [f t] := by
  rw [List.map_append, map_untouched f A entryId hA]
  simp [ht]

theorem applyEvents_invariant (parse : Str → Option ChatChunk) :
    ∀ (evs : List Str) (ls : LoopState),
    ((evs.foldl (applyEvent parse) ls).history = ls.history)
    ∧ ((evs.foldl (applyEvent parse) ls).buffer = ls.buffer)
    ∧ ((evs.foldl (applyEvent parse) ls).assistantText
        = ls.assistantText ++ (streamDeltas parse evs).flatten)
  | [], ls => by simp [streamDeltas]
  | ev :: evs, ls => by
    rw [List.foldl_cons]
    rcases hdec : decodeEvent parse ev with _ | d
    · have hstep : applyEvent parse ls ev = ls := by
        simp [applyEvent, hdec]
      rw [hstep]
      have ih := applyEvents_invariant parse evs ls
      refine ⟨ih.1, ih.2.1, ?_⟩
      rw [ih.2.2]
      simp [streamDeltas, hdec]
    · have hstep : applyEvent parse ls ev
          = { ls with
              assistantText := ls.assistantText ++ d,
              ref := scheduleAssistantUpdate ls.ref (ls.assistantText ++ d) } := by
        simp [applyEvent, hdec]
      rw [hstep]
      have ih := applyEvents_invariant parse evs
        { ls with
          assistantText := ls.assistantText ++ d,
          ref := scheduleAssistantUpdate ls.ref (ls.assistantText ++ d) }
      refine ⟨by simpa using ih.1, by simpa using ih.2.1, ?_⟩
      rw [ih.2.2]
      simp [streamDeltas, hdec, List.append_assoc]

theorem readChunk_history (parse : Str → Option ChatChunk) (entryId : Str) (tickNow : Nat)
    (ls : LoopState) (c : Str × Bool) (A : List Turn) (t : Turn)
    (hh : ls.history = A ++ [t]) (hA : ∀ e ∈ A, e.id ≠ entryId) (ht : t.id = entryId) :
    ∃ a1 o1, (readChunk parse entryId tickNow ls c).history
      = A ++ [{ t with assistant := a1, assistantAt := o1 }] := by
  have hl2 := (applyEvents_invariant parse (parseSseEvents (ls.buffer ++ c.1)).1
    { ls with buffer := (parseSseEvents (ls.buffer ++ c.1)).2 }).1
  simp only [readChunk]
  split
  · dsimp only
    simp only [timerFire]
    split
    · dsimp only
      rw [hl2]
      have hh2 : ({ ls with buffer := (parseSseEvents (ls.buffer ++ c.1)).2 } : LoopState).history
          = A ++ [t] := hh
      rw [hh2]
      refine ⟨_, _, map_if_id _ A t entryId hA ht⟩
    · dsimp only
      rw [hl2]
      exact ⟨t.assistant, t.assistantAt, hh⟩
  · rw [hl2]
    exact ⟨t.assistant, t.assistantAt, hh⟩

theorem runLoop_history_shape (parse : Str → Option ChatChunk) (entryId : Str) (tickNow : Nat) :
    ∀ (chunks : List (Str × Bool)) (ls : LoopState) (A : List Turn) (t : Turn),
    ls.history = A ++ [t] → (∀ e ∈ A, e.id ≠ entryId) → t.id = entryId →
    ∃ a o, (runLoop parse entryId tickNow ls chunks).history
      = A ++ [{ t with assistant := a, assistantAt := o }]
  | [], _, _, t, hh, _, _ => ⟨t.assistant, t.assistantAt, hh⟩
  | c :: cs, ls, A, t, hh, hA, ht => by
    obtain ⟨a1, o1, h1⟩ := readChunk_history parse entryId tickNow ls c A t hh hA ht
    obtain ⟨a, o, h2⟩ := runLoop_history_shape parse entryId tickNow cs
      (readChunk parse entryId tickNow ls c) A
      { t with assistant := a1, assistantAt := o1 } h1 hA
      (by rw [turn_update_id]; exact ht)
    refine ⟨a, o, ?_⟩
    have hsplit : runLoop parse entryId tickNow ls (c :: cs)
        = runLoop parse entryId tickNow (readChunk parse entryId tickNow ls c) cs := rfl
    rw [hsplit, h2, turn_update_comp]

/-- C2: Abort discards partial content — when an accepted submit's
stream is aborted (a new submit or a session switch cancels it), the
open turn's assistant text is reset to the empty string, its
`assistantAt` is cleared, the engine returns to idle with no error
message set, and the `sessionId` switch effect itself also resets to
idle with an empty error. -/
theorem submit_abort_discards (parse : Str → Option ChatChunk) (ctx : SubmitCtx)
    (s : EngineState) (chunks : List (Str × Bool))
    (hg1 : jsTrim s.input ≠ []) (hg2 : ctx.selectedModel ≠ [])
    (hg3 : s.status ≠ "streaming".toList) (hg4 : ctx.sessionId ≠ none)
    (hfresh : ∀ t ∈ s.history, t.id ≠ ctx.entryId) :
    (handleSubmit parse ctx s (StreamResult.aborted chunks)).state.status = "idle".toList
    ∧ (handleSubmit parse ctx s (StreamResult.aborted chunks)).state.error = []
    ∧ (handleSubmit parse ctx s (StreamResult.aborted chunks)).state.streamingId = none
    ∧ (handleSubmit parse ctx s (StreamResult.aborted chunks)).state.history
      = s.history ++ [⟨ctx.entryId, jsTrim s.input, [], ctx.now, none⟩]
    ∧ (sessionChangeEffect s).status = "idle".toList
    ∧ (sessionChangeEffect s).error = []
    ∧ (sessionChangeEffect s).streamingId = none := by
  have hng : ¬(jsTrim s.input = [] ∨ ctx.selectedModel = []
      ∨ s.status = "streaming".toList) := by
    intro hc
    rcases hc with hc | hc | hc
    · exact hg1 hc
    · exact hg2 hc
    · exact hg3 hc
  refine ⟨?_, ?_, ?_, ?_, rfl, rfl, rfl⟩
  · rw [handleSubmit, if_neg hng, if_neg hg4]
  · rw [handleSubmit, if_neg hng, if_neg hg4]
  · rw [handleSubmit, if_neg hng, if_neg hg4]
  · rw [handleSubmit, if_neg hng, if_neg hg4]
    dsimp only
    obtain ⟨a, o, hl⟩ := runLoop_history_shape parse ctx.entryId ctx.tickNow chunks
      ⟨[], [], s.streamUpdate, s.history ++ [⟨ctx.entryId, jsTrim s.input, [], ctx.now, none⟩]⟩
      s.history ⟨ctx.entryId, jsTrim s.input, [], ctx.now, none⟩ rfl hfresh rfl
    rw [hl, map_if_id (fun e => { e with assistant := [], assistantAt := none })
      s.history _ ctx.entryId hfresh rfl]

theorem submit_abort_discards_witness :
    (handleSubmit (fun _ => none)
        ⟨("m".toList), [], some ("s1".toList), ("e1".toList), 0, 1, 2⟩
        ⟨[], ("hi".toList), ("idle".toList), none, [], ⟨false, []⟩⟩
        (StreamResult.aborted [])).state.history
      = [] ++ [⟨("e1".toList), jsTrim ("hi".toList), [], 0, none⟩] :=
  (submit_abort_discards (fun _ => none)
    ⟨("m".toList), [], some ("s1".toList), ("e1".toList), 0, 1, 2⟩
    ⟨[], ("hi".toList), ("idle".toList), none, [], ⟨false, []⟩⟩ []
    (by decide) (by decide) (by decide) (by decide)
    (fun t ht => absurd ht (List.not_mem_nil t))).2.2.2.1

theorem applyEvents_skip (parse : Str → Option ChatChunk) :
    ∀ (evs : List Str) (ls : LoopState),
    streamDeltas parse evs = [] → evs.foldl (applyEvent parse) ls = ls
  | [], _, _ => rfl
  | ev :: evs, ls, h => by
    rcases hdec : decodeEvent parse ev with _ | d
    · rw [List.foldl_cons]
      have hstep : applyEvent parse ls ev = ls := by
        simp [applyEvent, hdec]
      rw [hstep]
      refine applyEvents_skip parse evs ls ?_
      simpa [streamDeltas, hdec] using h
    · exfalso
      simp [streamDeltas, hdec] at h

theorem runLoop_nodelta (parse : Str → Option ChatChunk) (entryId : Str) (tickNow : Nat) :
    ∀ (chunks : List (Str × Bool)) (buf : Str) (r : StreamUpdateRef) (hist : List Turn),
    r.timer = false →
    streamDeltas parse (feedChunks buf (chunks.map Prod.fst)).1 = [] →
    runLoop parse entryId tickNow ⟨buf, [], r, hist⟩ chunks
      = ⟨(feedChunks buf (chunks.map Prod.fst)).2, [], r, hist⟩
  | [], buf, r, hist, _, _ => by
    simp [runLoop, feedChunks]
  | c :: cs, buf, r, hist, ht, hz => by
    have hfeed : feedChunks buf ((c :: cs).map Prod.fst)
        = ((parseSseEvents (buf ++ c.1)).1
            ++ (feedChunks (parseSseEvents (buf ++ c.1)).2 (cs.map Prod.fst)).1,
           (feedChunks (parseSseEvents (buf ++ c.1)).2 (cs.map Prod.fst)).2) := by
      rw [List.map_cons, feedChunks]
    rw [hfeed] at hz
    dsimp only at hz
    simp only [streamDeltas, List.filterMap_append, List.append_eq_nil] at hz
    have hz1 : streamDeltas parse (parseSseEvents (buf ++ c.1)).1 = [] := hz.1
    have hz2 : streamDeltas parse
        (feedChunks (parseSseEvents (buf ++ c.1)).2 (cs.map Prod.fst)).1 = [] := hz.2
    have hrc : readChunk parse entryId tickNow ⟨buf, [], r, hist⟩ c
        = ⟨(parseSseEvents (buf ++ c.1)).2, [], r, hist⟩ := by
      simp only [readChunk]
      rw [applyEvents_skip parse _ _ hz1]
      split
      · simp [timerFire, ht]
      · rfl
    have hsplit : runLoop parse entryId tickNow ⟨buf, [], r, hist⟩ (c :: cs)
        = runLoop parse entryId tickNow
            (readChunk parse entryId tickNow ⟨buf, [], r, hist⟩ c) cs := rfl
    rw [hsplit, hrc,
      runLoop_nodelta parse entryId tickNow cs (parseSseEvents (buf ++ c.1)).2 r hist ht hz2,
      hfeed]

/-- C10 (implicit): on normal stream completion with zero decoded
content deltas, the engine still stamps the open turn's `assistantAt`
and still issues an assistant persistence append whose content is the
empty string — the empty-reply case is not special-cased. -/
theorem submit_empty_reply_stamps (parse : Str → Option ChatChunk) (ctx : SubmitCtx)
    (s : EngineState) (chunks : List (Str × Bool))
    (hg1 : jsTrim s.input ≠ []) (hg2 : ctx.selectedModel ≠ [])
    (hg3 : s.status ≠ "streaming".toList) (hg4 : ctx.sessionId ≠ none)
    (hfresh : ∀ t ∈ s.history, t.id ≠ ctx.entryId)
    (htimer : s.streamUpdate.timer = false)
    (hzero : streamDeltas parse (feedChunks [] (chunks.map Prod.fst)).1 = []) :
    (handleSubmit parse ctx s (StreamResult.ok chunks)).state.history
      = s.history ++ [⟨ctx.entryId, jsTrim s.input, [], ctx.now, some ctx.endNow⟩]
    ∧ (handleSubmit parse ctx s (StreamResult.ok chunks)).persisted
      = [⟨"user".toList, jsTrim s.input⟩, ⟨"assistant".toList, []⟩]
    ∧ (handleSubmit parse ctx s (StreamResult.ok chunks)).state.status = "idle".toList := by
  have hng : ¬(jsTrim s.input = [] ∨ ctx.selectedModel = []
      ∨ s.status = "streaming".toList) := by
    intro hc
    rcases hc with hc | hc | hc
    · exact hg1 hc
    · exact hg2 hc
    · exact hg3 hc
  have hloop := runLoop_nodelta parse ctx.entryId ctx.tickNow chunks [] s.streamUpdate
    (s.history ++ [⟨ctx.entryId, jsTrim s.input, [], ctx.now, none⟩]) htimer hzero
  refine ⟨?_, ?_, ?_⟩
  · rw [handleSubmit, if_neg hng, if_neg hg4]
    dsimp only
    rw [hloop]
    dsimp only
    rw [map_if_id
      (fun e => { e with assistant := [], assistantAt := some (e.assistantAt.getD ctx.endNow) })
      s.history _ ctx.entryId hfresh rfl]
    rfl
  · rw [handleSubmit, if_neg hng, if_neg hg4]
    dsimp only
    rw [hloop]
  · rw [handleSubmit, if_neg hng, if_neg hg4]

theorem submit_empty_reply_stamps_witness :
    (handleSubmit (fun _ => none)
        ⟨("m".toList), [], some ("s1".toList), ("e1".toList), 0, 7, 2⟩
        ⟨[], ("hi".toList), ("idle".toList), none, [], ⟨false, []⟩⟩
        (StreamResult.ok [(("data: [DONE]\n\n").toList, false)])).persisted
      = [⟨"user".toList, jsTrim ("hi".toList)⟩, ⟨"assistant".toList, []⟩] :=
  (submit_empty_reply_stamps (fun _ => none)
    ⟨("m".toList), [], some ("s1".toList), ("e1".toList), 0, 7, 2⟩
    ⟨[], ("hi".toList), ("idle".toList), none, [], ⟨false, []⟩⟩
    [(("data: [DONE]\n\n").toList, false)]
    (by decide) (by decide) (by decide) (by decide)
    (fun t ht => absurd ht (List.not_mem_nil t)) rfl (by decide)).2.1

end Nyl
